import Mathlib

/-!
Shallow embedding of the stable-diffusion training code under
recognition/S4696417-Stable-Diffusion-ADNI: the diffusion noise scheduler,
the epoch-level training/validation loop of train.py, and the module-level
behaviour of pre_train.py.

Tensors are modelled as lists (a batch is a list of flattened examples)
over exact arithmetic: the scheduler over the reals (schedule tables kept
rational), the training loop over the type Fp of float values that are
either finite rationals or non-finite (NaN/Inf collapsed into one
constructor, which is all the loop claims distinguish).  Randomness
(torch.randn_like, torch.randint) is passed in explicitly as data or as an
integer source, and the external networks (VAE encoder, U-Net) and the
autograd/AdamW machinery are abstracted as function fields of a
configuration record, exactly at the call boundaries train.py uses.
-/

namespace SDModel

/-- A scheduler failure.  RangeError models the hard failure the spec
demands for a timestep outside the valid range; it carries the offending
timestep. -/
inductive SchedulerError where
  | RangeError : ℤ → SchedulerError
deriving DecidableEq

/-- Modelled from the spec: the NoiseScheduler class lives in modules.py,
which is not among the sources; per the spec it is parameterized by a
precomputed noise-variance schedule, a sequence of per-timestep beta
values each in (0,1), whose length is the total timestep count. -/
structure NoiseScheduler where
  betas : List ℚ
  betas_range : ∀ b ∈ betas, 0 < b ∧ b < 1

namespace NoiseScheduler

/-- Total number of diffusion timesteps T (length of the beta schedule). -/
def num_timesteps (s : NoiseScheduler) : ℕ := s.betas.length

/-- Modelled from the spec: cumulative product of (1 - beta_t) up to and
including the given timestep (the cumulative alpha table, computed once at
construction). -/
def alphaBar (s : NoiseScheduler) (t : ℕ) : ℚ :=
  ((s.betas.take (t + 1)).map (fun b => 1 - b)).prod

/-- A timestep is valid iff it lies in [0, T). -/
def validTimestep (s : NoiseScheduler) (t : ℤ) : Bool :=
  decide (0 ≤ t) && decide (t < (s.num_timesteps : ℤ))

/-- Forward noising of one example at one timestep:
sqrt(alphaBar t) * latent + sqrt(1 - alphaBar t) * noise, elementwise. -/
noncomputable def add_noise_example (s : NoiseScheduler) (t : ℕ) (x n : List ℝ) : List ℝ :=
  List.zipWith (fun a b =>
    Real.sqrt ((s.alphaBar t : ℝ)) * a + Real.sqrt (1 - (s.alphaBar t : ℝ)) * b) x n

/-- Modelled from the spec: add_noise applies each example of the batch
with its own timestep; a timestep outside [0, T) is a hard RangeError (no
clamping), reported for the first offending entry. -/
noncomputable def add_noise (s : NoiseScheduler) (latent noise : List (List ℝ))
    (ts : List ℤ) : Except SchedulerError (List (List ℝ)) :=
  match ts.find? (fun t => ! s.validTimestep t) with
  | some t => .error (.RangeError t)
  | none =>
      .ok (((latent.zip noise).zip ts).map
        (fun p => s.add_noise_example p.2.toNat p.1.1 p.1.2))

/-- Closed-form single-step inversion of the forward formula for one
example: (noisy - sqrt(1 - alphaBar t) * pred) / sqrt(alphaBar t). -/
noncomputable def step_example (s : NoiseScheduler) (t : ℕ) (pred noisy : List ℝ) : List ℝ :=
  List.zipWith (fun p y =>
    (y - Real.sqrt (1 - (s.alphaBar t : ℝ)) * p) / Real.sqrt ((s.alphaBar t : ℝ))) pred noisy

/-- Modelled from the spec: step(predicted_noise, timesteps, noisy_latent)
inverts the forward formula to estimate the original latent, per example,
with the same timestep validation as add_noise. -/
noncomputable def step (s : NoiseScheduler) (pred : List (List ℝ)) (ts : List ℤ)
    (noisy : List (List ℝ)) : Except SchedulerError (List (List ℝ)) :=
  match ts.find? (fun t => ! s.validTimestep t) with
  | some t => .error (.RangeError t)
  | none =>
      .ok (((pred.zip noisy).zip ts).map
        (fun p => s.step_example p.2.toNat p.1.1 p.1.2))

/-- The forward-noising formula exactly as the spec phrases it, written by
direct structural recursion over the batch; used to state that the guarded
implementation above agrees with the spec text. -/
noncomputable def add_noise_spec_formula (s : NoiseScheduler) :
    List (List ℝ) → List (List ℝ) → List ℤ → List (List ℝ)
  | x :: xs, n :: ns, t :: ts =>
      List.zipWith (fun a b =>
          Real.sqrt ((s.alphaBar t.toNat : ℝ)) * a
            + Real.sqrt (1 - (s.alphaBar t.toNat : ℝ)) * b) x n
        :: s.add_noise_spec_formula xs ns ts
  | _, _, _ => []

end NoiseScheduler

/-- A concrete one-timestep scheduler (beta = 16/25, so alphaBar 0 = 9/25)
used by the concrete witnesses. -/
def demoScheduler : NoiseScheduler := ⟨[16 / 25], by norm_num⟩

/-!
## The training loop of train.py

Scalar values produced by the float computation are modelled by Fp: either
a finite rational or nonfinite (NaN and the infinities collapsed into one
constructor, which is all the loop-level claims distinguish; exact
rational arithmetic never overflows, so nonfinite values enter only
through the abstracted network evaluations, matching where instability
arises in the real run).
-/

/-- A float scalar: finite (exact rational) or non-finite (NaN/Inf). -/
inductive Fp where
  | nonfinite : Fp
  | val : ℚ → Fp
deriving DecidableEq

/-- Float addition: any non-finite operand makes the result non-finite
(NaN propagates; this collapses inf + inf and inf - inf alike). -/
def Fp.add : Fp → Fp → Fp
  | Fp.val a, Fp.val b => Fp.val (a + b)
  | _, _ => Fp.nonfinite

/-- Float subtraction, same non-finite propagation as addition. -/
def Fp.sub : Fp → Fp → Fp
  | Fp.val a, Fp.val b => Fp.val (a - b)
  | _, _ => Fp.nonfinite

/-- Float multiplication, same non-finite propagation. -/
def Fp.mul : Fp → Fp → Fp
  | Fp.val a, Fp.val b => Fp.val (a * b)
  | _, _ => Fp.nonfinite

/-- Division by an element count; division by zero is NaN (torch mean of
an empty tensor is NaN). -/
def Fp.divNat : Fp → ℕ → Fp
  | Fp.val a, n => if n = 0 then Fp.nonfinite else Fp.val (a / n)
  | Fp.nonfinite, _ => Fp.nonfinite

/-- Whether a float scalar is finite. -/
def Fp.isFinite : Fp → Bool
  | Fp.val _ => true
  | Fp.nonfinite => false

/-- Sum of a list of float scalars. -/
def fpSum (l : List Fp) : Fp := l.foldr Fp.add (Fp.val 0)

/-- nn.MSELoss(): the mean of the squared elementwise differences between
prediction and target (train.py line 52/101). -/
def mseLoss (pred target : List Fp) : Fp :=
  Fp.divNat
    (fpSum (List.zipWith (fun a b => Fp.mul (Fp.sub a b) (Fp.sub a b)) pred target))
    (List.zipWith (fun a b => Fp.mul (Fp.sub a b) (Fp.sub a b)) pred target).length

/-- One model parameter: its value and its requires_grad flag. -/
structure Param where
  value : ℚ
  requiresGrad : Bool
deriving DecidableEq

/-- The two networks whose forward passes the loop invokes. -/
inductive Callee where
  | vae : Callee
  | unet : Callee
deriving DecidableEq

/-- One data batch together with its externally supplied randomness: the
images, the Gaussian noise drawn by torch.randn_like, and the integer
source feeding torch.randint for the per-example timesteps. -/
structure Batch where
  images : List (List ℚ)
  noiseRand : List (List ℚ)
  tsRand : ℕ → ℕ

/-- The run configuration: scheduler hyperparameters (the precomputed
square-root schedule tables as stored by the scheduler), the external
networks (frozen VAE encoder, trainable U-Net) at their call boundaries,
and the autograd/AdamW machinery abstracted as functions.  gradOf models
loss.backward() through the GradScaler (the scaled gradients it unscales
and inspects); update models the AdamW update of one trainable
parameter. -/
structure LoopConfig where
  numTimesteps : ℕ
  sqrtAC : ℕ → ℚ
  sqrtOneMinusAC : ℕ → ℚ
  encode : List Param → List ℚ → List Fp
  unet : List Param → List Fp → ℕ → List Fp
  gradOf : List Param → Batch → List Fp
  update : ℕ → ℚ → ℚ

/-- Mutable training state: all model parameters (VAE entries followed by
U-Net entries, as registered on the composed StableDiffusion module),
the optimizer step counter, the LR-scheduler step counter, the running
loss accumulators, and a log of forward calls tagged with whether
gradient tracking was enabled for that call. -/
structure TrainState where
  params : List Param
  optSteps : ℕ
  lrSchedSteps : ℕ
  trainLoss : Fp
  valLoss : Fp
  log : List (Callee × Bool)

/-- Artifacts the run persists to disk. -/
inductive Artifact where
  | modelParams : List Param → Artifact
  | optimizerState : ℕ → Artifact
  | lrSchedulerState : ℕ → Artifact
  | sampleImages : ℕ → Artifact
deriving DecidableEq

/-- Whether an artifact is a persisted optimizer state. -/
def isOptimizerArtifact : Artifact → Bool
  | Artifact.optimizerState _ => true
  | _ => false

/-- Whether an artifact is a persisted LR-scheduler state. -/
def isLrSchedArtifact : Artifact → Bool
  | Artifact.lrSchedulerState _ => true
  | _ => false

/-- torch.randint(0, T, (n,)) at train.py lines 92 and 158: one timestep
per example, the uniform integer source reduced into [0, T). -/
def sampleTimesteps (g : ℕ → ℕ) (n T : ℕ) : List ℕ :=
  (List.range n).map (fun i => g i % T)

/-- Forward noising of one example inside the loop (the scheduler's
add_noise as the loop consumes it, over float values, using the stored
square-root tables). -/
def noisyRow (cfg : LoopConfig) (t : ℕ) (lat : List Fp) (nr : List ℚ) : List Fp :=
  List.zipWith
    (fun l n => Fp.add (Fp.mul (Fp.val (cfg.sqrtAC t)) l)
                       (Fp.mul (Fp.val (cfg.sqrtOneMinusAC t)) (Fp.val n)))
    lat nr

/-- train.py lines 87-95 / 154-159: encode the images to latents (under
torch.no_grad), sample per-example timesteps, and forward-noise the
latents. -/
def loopNoisyLatents (cfg : LoopConfig) (ps : List Param) (b : Batch) : List (List Fp) :=
  (((b.images.map (cfg.encode ps)).zip b.noiseRand).zip
      (sampleTimesteps b.tsRand b.images.length cfg.numTimesteps)).map
    (fun p => noisyRow cfg p.2 p.1.1 p.1.2)

/-- train.py line 100 / 162: the U-Net applied to the noisy latents and
their timesteps. -/
def batchPredNoise (cfg : LoopConfig) (ps : List Param) (b : Batch) : List (List Fp) :=
  ((loopNoisyLatents cfg ps b).zip
      (sampleTimesteps b.tsRand b.images.length cfg.numTimesteps)).map
    (fun p => cfg.unet ps p.1 p.2)

/-- train.py line 101 / 163: MSE between predicted and true noise over the
whole batch tensor. -/
def batchLoss (cfg : LoopConfig) (ps : List Param) (b : Batch) : Fp :=
  mseLoss (batchPredNoise cfg ps b).flatten ((b.noiseRand.flatten).map Fp.val)

/-- The AdamW parameter update applied by optimizer.step(): parameters
whose requires_grad flag is cleared receive no gradient, hence are left
untouched; trainable ones are updated by the abstract update rule. -/
def updateParams (u : ℕ → ℚ → ℚ) : ℕ → List Param → List Param
  | _, [] => []
  | i, p :: ps =>
      (if p.requiresGrad then ⟨u i p.value, p.requiresGrad⟩ else p)
        :: updateParams u (i + 1) ps

/-- Forward calls of one training batch with their gradient-tracking mode:
VAE encode under torch.no_grad (line 87), U-Net under autocast with
gradients enabled (line 100), VAE decode for metrics under torch.no_grad
(line 112). -/
def trainCallLog : List (Callee × Bool) :=
  [(Callee.vae, false), (Callee.unet, true), (Callee.vae, false)]

/-- Forward calls of one validation batch: the whole loop body sits under
torch.no_grad (line 150), so every call runs with gradients disabled. -/
def valCallLog : List (Callee × Bool) :=
  [(Callee.vae, false), (Callee.unet, false), (Callee.vae, false)]

/-- One training batch, train.py lines 80-130: compute the loss,
backpropagate through the GradScaler, and let scaler.step(optimizer) run
the optimizer step unless the inspected gradients contain non-finite
values (in which case GradScaler skips the step); the batch loss is then
accumulated into the running train loss unconditionally (line 117) - the
loop has no NaN/Inf guard of its own. -/
def trainBatch (cfg : LoopConfig) (s : TrainState) (b : Batch) : TrainState :=
  let loss := batchLoss cfg s.params b
  let gradsOk := (cfg.gradOf s.params b).all Fp.isFinite
  { params := if gradsOk then updateParams cfg.update 0 s.params else s.params
    optSteps := if gradsOk then s.optSteps + 1 else s.optSteps
    lrSchedSteps := s.lrSchedSteps
    trainLoss := Fp.add s.trainLoss loss
    valLoss := s.valLoss
    log := s.log ++ trainCallLog }

/-- One validation batch, train.py lines 151-175: the same forward
computation under torch.no_grad; only the validation metric accumulators
change. -/
def valBatch (cfg : LoopConfig) (s : TrainState) (b : Batch) : TrainState :=
  let loss := batchLoss cfg s.params b
  { s with valLoss := Fp.add s.valLoss loss
           log := s.log ++ valCallLog }

/-- One training epoch: fold the training batches in loader order. -/
def trainEpoch (cfg : LoopConfig) (s : TrainState) (bs : List Batch) : TrainState :=
  bs.foldl (trainBatch cfg) s

/-- One validation epoch: fold the validation batches in loader order. -/
def valEpoch (cfg : LoopConfig) (s : TrainState) (bs : List Batch) : TrainState :=
  bs.foldl (valBatch cfg) s

/-- The epoch loop, train.py lines 72-202: reset the running train loss,
run a training epoch, reset the running validation loss, run a validation
epoch, generate sample images every second epoch (line 198), and step the
LR scheduler once per epoch (line 202). -/
def runEpochs (cfg : LoopConfig) (tb vb : List Batch) :
    ℕ → ℕ → TrainState → TrainState × List Artifact
  | 0, _, s => (s, [])
  | n + 1, e, s =>
      let s1 := trainEpoch cfg { s with trainLoss := Fp.val 0 } tb
      let s2 := valEpoch cfg { s1 with valLoss := Fp.val 0 } vb
      let s3 := { s2 with lrSchedSteps := s2.lrSchedSteps + 1 }
      let r := runEpochs cfg tb vb n (e + 1) s3
      (r.1, (if (e + 1) % 2 = 0 then [Artifact.sampleImages (e + 1)] else []) ++ r.2)

/-- A full run, train.py lines 72-205: the epoch loop followed by the
single finalization step torch.save(model.state_dict(), ...), which
persists exactly the model parameters. -/
def run (cfg : LoopConfig) (tb vb : List Batch) (epochs : ℕ) (s : TrainState) :
    TrainState × List Artifact :=
  let r := runEpochs cfg tb vb epochs 0 s
  (r.1, r.2 ++ [Artifact.modelParams r.1.params])

/-- The frozen view of a parameter list: the value of every parameter
whose requires_grad flag is cleared (trainable entries are masked out). -/
def frozenPart (ps : List Param) : List (Option ℚ) :=
  ps.map (fun p => if p.requiresGrad then none else some p.value)

/-- train.py lines 45-46: for param in vae.parameters():
param.requires_grad = False. -/
def freezeParams (ps : List Param) : List Param :=
  ps.map (fun p => ⟨p.value, false⟩)

/-- The VAE forward calls made with gradient tracking enabled, out of a
call log. -/
def vaeGradOn (l : List (Callee × Bool)) : List (Callee × Bool) :=
  l.filter (fun e => decide (e.1 = Callee.vae) && e.2)

/-!
## The module-level behaviour of pre_train.py
-/

/-- An observable action of importing / running pre_train.py: a call to
train_vae with image size, epoch count, batch size, data path and
checkpoint path. -/
inductive PreTrainAction where
  | trainVaeCall : ℕ → ℕ → ℕ → String → String → PreTrainAction
deriving DecidableEq

/-- pre_train.py line 149: the module-level method selector. -/
def preTrainMethod : String := "Local"

/-- pre_train.py lines 149-161: the module-level code executed when the
module is first imported; under the committed selector it calls train_vae
with the Local data path, image size 128, 80 epochs and batch size 16. -/
def preTrainModuleInit : List PreTrainAction :=
  if preTrainMethod = "Slurm" then
    [PreTrainAction.trainVaeCall 128 80 16
      "/home/groups/comp3710/ADNI/AD_NC/train/AD" "checkpoints/VAE"]
  else if preTrainMethod = "Local" then
    [PreTrainAction.trainVaeCall 128 80 16
      "recognition/S4696417-Stable-Diffusion-ADNI/data/train/AD"
      "recognition/S4696417-Stable-Diffusion-ADNI/checkpoints/VAE"]
  else []

/-- train.py line 12: from pre_train import train_vae.  A first import of
a Python module executes its module-level statements, so the import
carries out preTrainModuleInit as a side effect. -/
def trainPyImportSideEffects : List PreTrainAction := preTrainModuleInit

/-!
## Concrete instances used by witnesses and counterexamples
-/

/-- A concrete configuration: identity U-Net, identity VAE encoder
(latent = image), schedule tables of a cosine-free placeholder, empty
(hence finite) gradients, identity parameter update. -/
def cfgId : LoopConfig :=
  { numTimesteps := 1000
    sqrtAC := fun _ => 1
    sqrtOneMinusAC := fun _ => 0
    encode := fun _ img => img.map Fp.val
    unet := fun _ x _ => x
    gradOf := fun _ _ => []
    update := fun _ v => v }

/-- The identity configuration with a U-Net whose forward pass produces a
NaN, as an unstable half-precision step does. -/
def cfgNan : LoopConfig :=
  { cfgId with unet := fun _ _ _ => [Fp.nonfinite] }

/-- A fresh training state with one trainable parameter. -/
def st0 : TrainState :=
  { params := [⟨1, true⟩]
    optSteps := 0
    lrSchedSteps := 0
    trainLoss := Fp.val 0
    valLoss := Fp.val 0
    log := [] }

/-- A training state whose parameters are a frozen VAE entry of value 5
followed by a trainable U-Net entry of value 7. -/
def stFrozen : TrainState :=
  { st0 with params := freezeParams [⟨5, true⟩] ++ [⟨7, true⟩] }

/-- A one-example batch. -/
def batch1 : Batch :=
  { images := [[1]], noiseRand := [[2]], tsRand := fun _ => 0 }

/-- A second batch with a two-pixel example. -/
def batch2 : Batch :=
  { images := [[3, 4]], noiseRand := [[5, 6]], tsRand := fun i => i + 7 }

/-!
## Scheduler lemmas and the scheduler claims
-/

namespace NoiseScheduler

/-- The cumulative alpha is positive: every factor 1 - beta is positive
because every beta lies in (0,1). -/
theorem alphaBar_pos (s : NoiseScheduler) (t : ℕ) : 0 < s.alphaBar t := by
  unfold alphaBar
  apply List.prod_pos
  intro y hy
  rw [List.mem_map] at hy
  obtain ⟨b, hb, rfl⟩ := hy
  have hr := s.betas_range b (List.take_subset _ _ hb)
  linarith [hr.2]

/-- If every timestep of the batch is valid then the range guard finds no
offender. -/
theorem find?_invalid_eq_none (s : NoiseScheduler) (ts : List ℤ)
    (hv : ts.all (fun t => s.validTimestep t) = true) :
    ts.find? (fun t => ! s.validTimestep t) = none := by
  rw [List.find?_eq_none]
  intro x hx
  rw [List.all_eq_true] at hv
  simp [hv x hx]

/-- The guarded zip traversal of add_noise produces exactly the direct
recursion of the spec formula. -/
theorem add_noise_rows (s : NoiseScheduler) :
    ∀ (latent noise : List (List ℝ)) (ts : List ℤ),
      ((latent.zip noise).zip ts).map
          (fun p => s.add_noise_example p.2.toNat p.1.1 p.1.2)
        = s.add_noise_spec_formula latent noise ts := by
  intro latent
  induction latent with
  | nil => intro noise ts; cases noise <;> cases ts <;> simp [add_noise_spec_formula]
  | cons x xs ih =>
      intro noise ts
      cases noise with
      | nil => cases ts <;> simp [add_noise_spec_formula]
      | cons n ns =>
          cases ts with
          | nil => simp [add_noise_spec_formula]
          | cons t tr =>
              simp only [List.zip_cons_cons, List.map_cons, add_noise_spec_formula,
                add_noise_example, List.cons.injEq]
              exact ⟨trivial, ih ns tr⟩

/-- Shape preservation of the spec formula: under matching batch shapes,
every output row has the length of the corresponding latent row. -/
theorem add_noise_spec_formula_lengths (s : NoiseScheduler) :
    ∀ (latent noise : List (List ℝ)) (ts : List ℤ),
      latent.length = noise.length → latent.length = ts.length →
      latent.map List.length = noise.map List.length →
      (s.add_noise_spec_formula latent noise ts).map List.length
        = latent.map List.length := by
  intro latent
  induction latent with
  | nil => intro noise ts _ _ _; cases noise <;> cases ts <;> simp [add_noise_spec_formula]
  | cons x xs ih =>
      intro noise ts hlen hts hshape
      cases noise with
      | nil => simp at hlen
      | cons n ns =>
          cases ts with
          | nil => simp at hts
          | cons t tr =>
              simp only [List.map_cons, List.cons.injEq] at hshape
              simp only [add_noise_spec_formula, List.map_cons, List.length_zipWith,
                List.cons.injEq]
              refine ⟨by omega, ?_⟩
              exact ih ns tr (by simpa using hlen) (by simpa using hts) hshape.2

/-- C1: for matching batch shapes and per-example timesteps all inside
[0, T), add_noise returns (as a success) exactly the spec formula
sqrt(alphaBar t) * latent + sqrt(1 - alphaBar t) * noise applied with each
example's own timestep, and the output has the same shape (row count and
per-row lengths) as the input latent; being a pure function of (latent,
noise, timesteps), it is deterministic given the same noise tensor. -/
theorem add_noise_matches_spec_formula (s : NoiseScheduler)
    (latent noise : List (List ℝ)) (ts : List ℤ)
    (hlen : latent.length = noise.length) (hts : latent.length = ts.length)
    (hshape : latent.map List.length = noise.map List.length)
    (hv : ts.all (fun t => s.validTimestep t) = true) :
    s.add_noise latent noise ts = .ok (s.add_noise_spec_formula latent noise ts) ∧
    (s.add_noise_spec_formula latent noise ts).map List.length
      = latent.map List.length ∧
    (s.add_noise_spec_formula latent noise ts).length = latent.length := by
  have h0 := find?_invalid_eq_none s ts hv
  have h2 := add_noise_spec_formula_lengths s latent noise ts hlen hts hshape
  refine ⟨?_, h2, ?_⟩
  · simp only [add_noise, h0, add_noise_rows]
  · have := congrArg List.length h2
    simpa using this

/-- C1 witness: a concrete two-pixel, one-example batch at timestep 0. -/
theorem add_noise_matches_spec_formula_witness :
    ([[(1:ℝ), 2]] : List (List ℝ)).length = ([[(3:ℝ), 4]] : List (List ℝ)).length ∧
    ([[(1:ℝ), 2]] : List (List ℝ)).length = ([(0:ℤ)] : List ℤ).length ∧
    ([[(1:ℝ), 2]] : List (List ℝ)).map List.length
      = ([[(3:ℝ), 4]] : List (List ℝ)).map List.length ∧
    (([(0:ℤ)] : List ℤ).all (fun t => demoScheduler.validTimestep t) = true) ∧
    demoScheduler.add_noise [[1, 2]] [[3, 4]] [0]
      = .ok (demoScheduler.add_noise_spec_formula [[1, 2]] [[3, 4]] [0]) :=
  ⟨rfl, rfl, rfl, by decide,
    (add_noise_matches_spec_formula demoScheduler [[1, 2]] [[3, 4]] [0]
      rfl rfl rfl (by decide)).1⟩

/-- Single-example round trip: the closed-form step applied to the noised
example with the true noise as prediction recovers the example exactly,
because sqrt(alphaBar t) is non-zero. -/
theorem step_example_add_noise_example (s : NoiseScheduler) (t : ℕ)
    (x n : List ℝ) (h : x.length = n.length) :
    s.step_example t n (s.add_noise_example t x n) = x := by
  have hpos : (0:ℝ) < ((s.alphaBar t : ℚ) : ℝ) := by
    exact_mod_cast s.alphaBar_pos t
  have hne : Real.sqrt ((s.alphaBar t : ℝ)) ≠ 0 := (Real.sqrt_pos.mpr hpos).ne'
  induction x generalizing n with
  | nil =>
      cases n with
      | nil => rfl
      | cons b bs => simp at h
  | cons a as ih =>
      cases n with
      | nil => simp at h
      | cons b bs =>
          simp only [add_noise_example, step_example, List.zipWith_cons_cons,
            List.cons.injEq] at ih ⊢
          constructor
          · have hc : Real.sqrt ((s.alphaBar t : ℝ)) * a
                + Real.sqrt (1 - (s.alphaBar t : ℝ)) * b
                - Real.sqrt (1 - (s.alphaBar t : ℝ)) * b
                = Real.sqrt ((s.alphaBar t : ℝ)) * a := by ring
            rw [hc, mul_div_cancel_left₀ a hne]
          · have hlen : as.length = bs.length := by simpa using h
            simpa [add_noise_example, step_example] using ih bs hlen

/-- Batch-level round trip on the raw rows. -/
theorem step_rows (s : NoiseScheduler) :
    ∀ (latent noise : List (List ℝ)) (ts : List ℤ),
      latent.length = noise.length → latent.length = ts.length →
      latent.map List.length = noise.map List.length →
      ((noise.zip (((latent.zip noise).zip ts).map
            (fun p => s.add_noise_example p.2.toNat p.1.1 p.1.2))).zip ts).map
          (fun p => s.step_example p.2.toNat p.1.1 p.1.2) = latent := by
  intro latent
  induction latent with
  | nil =>
      intro noise ts hlen _ _
      have : noise = [] := by
        cases noise with
        | nil => rfl
        | cons n ns => simp at hlen
      subst this
      simp
  | cons x xs ih =>
      intro noise ts hlen hts hshape
      cases noise with
      | nil => simp at hlen
      | cons n ns =>
          cases ts with
          | nil => simp at hts
          | cons t tr =>
              simp only [List.map_cons, List.cons.injEq] at hshape
              simp only [List.zip_cons_cons, List.map_cons, List.cons.injEq]
              refine ⟨step_example_add_noise_example s t.toNat x n hshape.1, ?_⟩
              exact ih ns tr (by simpa using hlen) (by simpa using hts) hshape.2

/-- C2: add_noise followed by the closed-form single-step step, with the
predicted noise equal to the injected noise, recovers the original latent
exactly (so in particular within any numerical tolerance bound), for every
batch of valid timesteps in [0, T) and matching shapes. -/
theorem step_inverts_add_noise (s : NoiseScheduler)
    (latent noise : List (List ℝ)) (ts : List ℤ)
    (hlen : latent.length = noise.length) (hts : latent.length = ts.length)
    (hshape : latent.map List.length = noise.map List.length)
    (hv : ts.all (fun t => s.validTimestep t) = true) :
    (s.add_noise latent noise ts).bind (fun noisy => s.step noise ts noisy)
      = .ok latent := by
  have h0 := find?_invalid_eq_none s ts hv
  simp only [add_noise, h0, step, Except.bind]
  exact congrArg Except.ok (step_rows s latent noise ts hlen hts hshape)

/-- C2 witness: the concrete round trip at timestep 0 of the demo
scheduler. -/
theorem step_inverts_add_noise_witness :
    ([[(1:ℝ), 2]] : List (List ℝ)).length = ([[(3:ℝ), 4]] : List (List ℝ)).length ∧
    (([(0:ℤ)] : List ℤ).all (fun t => demoScheduler.validTimestep t) = true) ∧
    (demoScheduler.add_noise [[1, 2]] [[3, 4]] [0]).bind
        (fun noisy => demoScheduler.step [[3, 4]] [0] noisy)
      = .ok [[1, 2]] :=
  ⟨rfl, by decide,
    step_inverts_add_noise demoScheduler [[1, 2]] [[3, 4]] [0] rfl rfl rfl (by decide)⟩

/-- C3: whenever the guard finds a timestep outside [0, T) (in particular
at timestep T or -1), add_noise fails hard with a RangeError naming an
offending timestep of the batch; no clamped success value is returned. -/
theorem add_noise_out_of_range_fails (s : NoiseScheduler)
    (latent noise : List (List ℝ)) (ts : List ℤ) (t : ℤ)
    (h : ts.find? (fun u => ! s.validTimestep u) = some t) :
    s.add_noise latent noise ts = .error (.RangeError t) ∧
    s.validTimestep t = false ∧ t ∈ ts := by
  refine ⟨?_, ?_, List.mem_of_find?_eq_some h⟩
  · simp only [add_noise, h]
  · have h2 := List.find?_some h
    simpa using h2

/-- C3 witness: for the demo scheduler (T = 1), both timestep T = 1 and
timestep -1 make add_noise fail with a RangeError. -/
theorem add_noise_out_of_range_fails_witness :
    (([(1:ℤ)].find? (fun u => ! demoScheduler.validTimestep u) = some 1) ∧
      demoScheduler.add_noise [[1]] [[0]] [1] = .error (.RangeError 1)) ∧
    (([(-1:ℤ)].find? (fun u => ! demoScheduler.validTimestep u) = some (-1)) ∧
      demoScheduler.add_noise [[1]] [[0]] [-1] = .error (.RangeError (-1))) :=
  ⟨⟨by decide, (add_noise_out_of_range_fails demoScheduler [[1]] [[0]] [1] 1 (by decide)).1⟩,
   ⟨by decide, (add_noise_out_of_range_fails demoScheduler [[1]] [[0]] [-1] (-1) (by decide)).1⟩⟩

end NoiseScheduler

/-!
## Training-loop lemmas and claims
-/

/-- Adding a non-finite value to any accumulator yields a non-finite
result. -/
theorem Fp.add_nonfinite_right (x : Fp) : Fp.add x Fp.nonfinite = Fp.nonfinite := by
  cases x <;> rfl

/-- Addition of finite values is finite. -/
theorem Fp.isFinite_add {x y : Fp} (hx : x.isFinite = true) (hy : y.isFinite = true) :
    (Fp.add x y).isFinite = true := by
  cases x <;> cases y <;> simp_all [Fp.add, Fp.isFinite]

/-- C4 (amended): train.py has no NaN/Inf guard - when the loss of a batch
is non-finite it is still added into the running train loss (line 117),
which therefore becomes non-finite, and no diagnostic exists; only the
optimizer parameter update is skipped, and only because GradScaler skips
optimizer.step when the inspected gradients are non-finite. -/
theorem trainBatch_nonfinite_loss_accumulated (cfg : LoopConfig) (s : TrainState)
    (b : Batch) (hl : batchLoss cfg s.params b = Fp.nonfinite) :
    (trainBatch cfg s b).trainLoss = Fp.nonfinite ∧
    ((cfg.gradOf s.params b).all Fp.isFinite = false →
      (trainBatch cfg s b).params = s.params ∧
      (trainBatch cfg s b).optSteps = s.optSteps) := by
  constructor
  · simp [trainBatch, hl, Fp.add_nonfinite_right]
  · intro hg
    simp [trainBatch, hg]

/-- C4 witness: a configuration whose U-Net emits a NaN makes the batch
loss non-finite, and the accumulator after that batch is non-finite. -/
theorem trainBatch_nonfinite_loss_accumulated_witness :
    batchLoss cfgNan st0.params batch1 = Fp.nonfinite ∧
    (trainBatch cfgNan st0 batch1).trainLoss = Fp.nonfinite :=
  ⟨rfl, (trainBatch_nonfinite_loss_accumulated cfgNan st0 batch1 rfl).1⟩

/-- C4 counterexample: starting from a running loss of 0, one batch with a
NaN loss leaves the accumulator non-finite - the update is not skipped and
the accumulator is corrupted, contradicting the claimed guard. -/
theorem nan_loss_corrupts_running_loss_cex :
    st0.trainLoss = Fp.val 0 ∧
    (trainBatch cfgNan st0 batch1).trainLoss = Fp.nonfinite :=
  ⟨rfl, rfl⟩

/-- Folding one validation batch first is the same as folding the rest
from the updated state. -/
theorem valEpoch_cons (cfg : LoopConfig) (s : TrainState) (b : Batch) (bs : List Batch) :
    valEpoch cfg s (b :: bs) = valEpoch cfg (valBatch cfg s b) bs := rfl

/-- C5: a validation epoch changes no model parameter and no optimizer
state; its whole forward computation is logged under gradient tracking
disabled (one valCallLog triple per batch, every entry of which has the
grad flag false). -/
theorem valEpoch_frame (cfg : LoopConfig) (s : TrainState) (bs : List Batch) :
    (valEpoch cfg s bs).params = s.params ∧
    (valEpoch cfg s bs).optSteps = s.optSteps ∧
    (valEpoch cfg s bs).trainLoss = s.trainLoss ∧
    (valEpoch cfg s bs).log = s.log ++ (List.replicate bs.length valCallLog).flatten ∧
    valCallLog.all (fun e => ! e.2) = true := by
  induction bs generalizing s with
  | nil => exact ⟨rfl, rfl, rfl, by simp [valEpoch], rfl⟩
  | cons b bs ih =>
      obtain ⟨h1, h2, h3, h4, h5⟩ := ih (valBatch cfg s b)
      rw [valEpoch_cons]
      refine ⟨h1.trans (by simp [valBatch]), h2.trans (by simp [valBatch]),
        h3.trans (by simp [valBatch]), ?_, h5⟩
      rw [h4]
      simp [valBatch, List.replicate_succ, List.append_assoc]

/-- C6: torch.randint(0, T, (n,)) as used at train.py lines 92 and 158
(via sampleTimesteps, which both trainBatch and valBatch consume through
batchLoss) yields one timestep per example, every one inside [0, T); and
the reduction of the integer source into [0, T) is uniform: each block of
T consecutive source values maps bijectively onto [0, T). -/
theorem sampleTimesteps_in_range_uniform (g : ℕ → ℕ) (n T : ℕ) (hT : 0 < T) :
    (sampleTimesteps g n T).length = n ∧
    (sampleTimesteps g n T).all (fun t => decide (t < T)) = true ∧
    ∀ a : ℕ, (List.range T).map (fun i => (a * T + i) % T) = List.range T := by
  refine ⟨by simp [sampleTimesteps], ?_, ?_⟩
  · rw [List.all_eq_true]
    intro t ht
    rw [sampleTimesteps, List.mem_map] at ht
    obtain ⟨i, _, rfl⟩ := ht
    simpa using Nat.mod_lt _ hT
  · intro a
    have h1 : ∀ i ∈ List.range T, (a * T + i) % T = i := by
      intro i hi
      rw [List.mem_range] at hi
      calc (a * T + i) % T = (i + a * T) % T := by rw [Nat.add_comm]
        _ = i % T := Nat.add_mul_mod_self_right i a T
        _ = i := Nat.mod_eq_of_lt hi
    rw [List.map_congr_left h1, List.map_id']

/-- C6 witness: a concrete source, batch size 4 and T = 1000 (the block
bijectivity instantiated at the third block). -/
theorem sampleTimesteps_in_range_uniform_witness :
    (0:ℕ) < 1000 ∧
    (sampleTimesteps (fun i => 7 * i + 3) 4 1000).length = 4 ∧
    (sampleTimesteps (fun i => 7 * i + 3) 4 1000).all (fun t => decide (t < 1000)) = true ∧
    (List.range 1000).map (fun i => (3 * 1000 + i) % 1000) = List.range 1000 :=
  ⟨by decide,
   (sampleTimesteps_in_range_uniform (fun i => 7 * i + 3) 4 1000 (by decide)).1,
   (sampleTimesteps_in_range_uniform (fun i => 7 * i + 3) 4 1000 (by decide)).2.1,
   (sampleTimesteps_in_range_uniform (fun i => 7 * i + 3) 4 1000 (by decide)).2.2 3⟩

/-- The epoch loop on its own persists nothing but periodic sample images:
no optimizer state and no LR-scheduler state artifact ever appears. -/
theorem runEpochs_no_state_artifacts (cfg : LoopConfig) (tb vb : List Batch) :
    ∀ (n e : ℕ) (s : TrainState),
      (runEpochs cfg tb vb n e s).2.all
        (fun a => !(isOptimizerArtifact a) && !(isLrSchedArtifact a)) = true := by
  intro n
  induction n with
  | zero => intro e s; rfl
  | succ n ih =>
      intro e s
      simp only [runEpochs, List.all_append]
      rw [ih]
      simp only [Bool.and_true]
      split <;> rfl

/-- C7 (amended): when the loop terminates after its epoch count, the only
state it persists is the final model parameters (torch.save of the model
state dict, train.py line 205), besides periodic sample images; neither
the optimizer state nor the LR-scheduler state is persisted. -/
theorem run_persists_model_params_only (cfg : LoopConfig) (tb vb : List Batch)
    (epochs : ℕ) (s : TrainState) :
    Artifact.modelParams ((run cfg tb vb epochs s).1.params) ∈ (run cfg tb vb epochs s).2 ∧
    (run cfg tb vb epochs s).2.all
      (fun a => !(isOptimizerArtifact a) && !(isLrSchedArtifact a)) = true := by
  constructor
  · simp [run]
  · simp only [run, List.all_append]
    rw [runEpochs_no_state_artifacts]
    rfl

/-- C7 counterexample: a concrete one-epoch run persists exactly the model
parameter artifact - the saved-artifact list contains no optimizer state
and no LR-scheduler state, contradicting the claim that both are
persisted. -/
theorem run_persistence_cex :
    (run cfgId [] [] 1 st0).2 = [Artifact.modelParams [⟨1, true⟩]] := rfl

/-- Any member of a zipWith is the function applied to members of the two
lists. -/
theorem exists_of_mem_zipWith {α β γ : Type} {f : α → β → γ} :
    ∀ {as : List α} {bs : List β} {c : γ}, c ∈ List.zipWith f as bs →
      ∃ a ∈ as, ∃ b ∈ bs, c = f a b := by
  intro as
  induction as with
  | nil => intro bs c hc; simp at hc
  | cons a as ih =>
      intro bs c hc
      cases bs with
      | nil => simp at hc
      | cons b bs =>
          rw [List.zipWith_cons_cons, List.mem_cons] at hc
          rcases hc with h | h
          · exact ⟨a, List.mem_cons_self _ _, b, List.mem_cons_self _ _, h⟩
          · obtain ⟨x, hx, y, hy, rfl⟩ := ih h
            exact ⟨x, List.mem_cons_of_mem _ hx, y, List.mem_cons_of_mem _ hy, rfl⟩

/-- Multiplication of finite values is finite. -/
theorem Fp.isFinite_mul {x y : Fp} (hx : x.isFinite = true) (hy : y.isFinite = true) :
    (Fp.mul x y).isFinite = true := by
  cases x <;> cases y <;> simp_all [Fp.mul, Fp.isFinite]

/-- Subtraction of finite values is finite. -/
theorem Fp.isFinite_sub {x y : Fp} (hx : x.isFinite = true) (hy : y.isFinite = true) :
    (Fp.sub x y).isFinite = true := by
  cases x <;> cases y <;> simp_all [Fp.sub, Fp.isFinite]

/-- A sum of finite values is finite. -/
theorem fpSum_isFinite (l : List Fp) (h : ∀ x ∈ l, x.isFinite = true) :
    (fpSum l).isFinite = true := by
  induction l with
  | nil => rfl
  | cons x xs ih =>
      exact Fp.isFinite_add (h x (List.mem_cons_self _ _))
        (ih (fun y hy => h y (List.mem_cons_of_mem _ hy)))

/-- The MSE of finite tensors over a non-empty overlap is finite. -/
theorem mseLoss_isFinite (pred target : List Fp)
    (hp : ∀ x ∈ pred, x.isFinite = true) (ht : ∀ x ∈ target, x.isFinite = true)
    (hlen : (List.zipWith (fun a b => Fp.mul (Fp.sub a b) (Fp.sub a b)) pred target).length
      ≠ 0) :
    (mseLoss pred target).isFinite = true := by
  have hsum : (fpSum (List.zipWith (fun a b => Fp.mul (Fp.sub a b) (Fp.sub a b))
      pred target)).isFinite = true := by
    apply fpSum_isFinite
    intro x hx
    obtain ⟨a, ha, b, hb, rfl⟩ := exists_of_mem_zipWith hx
    exact Fp.isFinite_mul (Fp.isFinite_sub (hp a ha) (ht b hb))
      (Fp.isFinite_sub (hp a ha) (ht b hb))
  unfold mseLoss
  cases hq : fpSum (List.zipWith (fun a b => Fp.mul (Fp.sub a b) (Fp.sub a b)) pred target) with
  | nonfinite => rw [hq] at hsum; simp [Fp.isFinite] at hsum
  | val q =>
      simp only [Fp.divNat]
      rw [if_neg hlen]
      rfl

/-- With an identity U-Net, the predicted noise is exactly the noisy
latent batch. -/
theorem batchPredNoise_identity (cfg : LoopConfig) (ps : List Param) (b : Batch)
    (hunet : cfg.unet = fun _ x _ => x) :
    batchPredNoise cfg ps b = loopNoisyLatents cfg ps b := by
  unfold batchPredNoise
  simp only [hunet]
  have hle : (loopNoisyLatents cfg ps b).length
      ≤ (sampleTimesteps b.tsRand b.images.length cfg.numTimesteps).length := by
    simp [loopNoisyLatents, sampleTimesteps]
  exact List.map_fst_zip _ _ hle

/-- With an identity VAE encoder, every element of the noised latent batch
is finite. -/
theorem loopNoisyLatents_finite (cfg : LoopConfig) (ps : List Param) (b : Batch)
    (henc : cfg.encode = fun _ img => img.map Fp.val) :
    ∀ x ∈ (loopNoisyLatents cfg ps b).flatten, x.isFinite = true := by
  intro x hx
  rw [List.mem_flatten] at hx
  obtain ⟨row, hrow, hxr⟩ := hx
  unfold loopNoisyLatents at hrow
  rw [List.mem_map] at hrow
  obtain ⟨p, hp, rfl⟩ := hrow
  obtain ⟨⟨u, v⟩, t⟩ := p
  unfold noisyRow at hxr
  obtain ⟨l, hl, n, _, rfl⟩ := exists_of_mem_zipWith hxr
  have h1 := List.of_mem_zip hp
  have h2 := List.of_mem_zip h1.1
  have hu := h2.1
  rw [henc, List.mem_map] at hu
  obtain ⟨img, _, rfl⟩ := hu
  rw [List.mem_map] at hl
  obtain ⟨q, _, rfl⟩ := hl
  rfl

/-- The rows of the noised latent batch have the lengths of the image
rows (general list form). -/
theorem rows_map_length (cfg : LoopConfig) :
    ∀ (xs ns : List (List ℚ)) (ts : List ℕ),
      xs.map List.length = ns.map List.length → xs.length ≤ ts.length →
      ((((xs.map (fun img => img.map Fp.val)).zip ns).zip ts).map
          (fun p => noisyRow cfg p.2 p.1.1 p.1.2)).map List.length
        = xs.map List.length := by
  intro xs
  induction xs with
  | nil => intro ns ts _ _; simp
  | cons x xs ih =>
      intro ns ts hshape hts
      cases ns with
      | nil => simp at hshape
      | cons n ns =>
          cases ts with
          | nil => simp at hts
          | cons t tr =>
              simp only [List.map_cons, List.cons.injEq] at hshape
              simp only [List.map_cons, List.zip_cons_cons, List.cons.injEq]
              constructor
              · simp only [noisyRow, List.length_zipWith, List.length_map]
                omega
              · exact ih ns tr hshape.2 (by simpa using hts)

/-- With an identity encoder, the flattened noised batch has as many
elements as the flattened image batch. -/
theorem loopNoisyLatents_flatten_length (cfg : LoopConfig) (ps : List Param) (b : Batch)
    (henc : cfg.encode = fun _ img => img.map Fp.val)
    (hshape : b.images.map List.length = b.noiseRand.map List.length) :
    (loopNoisyLatents cfg ps b).flatten.length = b.images.flatten.length := by
  rw [List.length_flatten, List.length_flatten]
  suffices h : (loopNoisyLatents cfg ps b).map List.length = b.images.map List.length by
    rw [h]
  unfold loopNoisyLatents
  simp only [henc]
  exact rows_map_length cfg b.images b.noiseRand _ hshape (by simp [sampleTimesteps])

/-- With identity networks and matching non-empty shapes, the batch loss
is a finite value. -/
theorem batchLoss_isFinite (cfg : LoopConfig) (ps : List Param) (b : Batch)
    (henc : cfg.encode = fun _ img => img.map Fp.val)
    (hunet : cfg.unet = fun _ x _ => x)
    (hshape : b.images.map List.length = b.noiseRand.map List.length)
    (hne : b.images.flatten.length ≠ 0) :
    (batchLoss cfg ps b).isFinite = true := by
  unfold batchLoss
  rw [batchPredNoise_identity cfg ps b hunet]
  apply mseLoss_isFinite
  · exact loopNoisyLatents_finite cfg ps b henc
  · intro x hx
    rw [List.mem_map] at hx
    obtain ⟨q, _, rfl⟩ := hx
    rfl
  · rw [List.length_zipWith, loopNoisyLatents_flatten_length cfg ps b henc hshape,
      List.length_map]
    have h2 : b.noiseRand.flatten.length = b.images.flatten.length := by
      rw [List.length_flatten, List.length_flatten, hshape]
    rw [h2, Nat.min_self]
    exact hne

/-- Folding one training batch first is the same as folding the rest from
the updated state. -/
theorem trainEpoch_cons (cfg : LoopConfig) (s : TrainState) (b : Batch) (bs : List Batch) :
    trainEpoch cfg s (b :: bs) = trainEpoch cfg (trainBatch cfg s b) bs := rfl

/-- With finite gradients throughout, the optimizer step counter advances
exactly once per batch of the epoch. -/
theorem trainEpoch_optSteps (cfg : LoopConfig)
    (hgrad : ∀ (ps : List Param) (b : Batch), (cfg.gradOf ps b).all Fp.isFinite = true) :
    ∀ (bs : List Batch) (s : TrainState),
      (trainEpoch cfg s bs).optSteps = s.optSteps + bs.length := by
  intro bs
  induction bs with
  | nil => intro s; simp [trainEpoch]
  | cons b bs ih =>
      intro s
      rw [trainEpoch_cons, ih]
      have hb : (trainBatch cfg s b).optSteps = s.optSteps + 1 := by
        simp [trainBatch, hgrad]
      rw [hb]
      simp [List.length_cons]
      omega

/-- With identity networks and well-shaped non-empty batches, the running
train loss stays finite through an epoch. -/
theorem trainEpoch_trainLoss_finite (cfg : LoopConfig)
    (henc : cfg.encode = fun _ img => img.map Fp.val)
    (hunet : cfg.unet = fun _ x _ => x) :
    ∀ (bs : List Batch) (s : TrainState),
      (∀ b ∈ bs, b.images.map List.length = b.noiseRand.map List.length ∧
        b.images.flatten.length ≠ 0) →
      s.trainLoss.isFinite = true →
      (trainEpoch cfg s bs).trainLoss.isFinite = true := by
  intro bs
  induction bs with
  | nil => intro s _ hs; exact hs
  | cons b bs ih =>
      intro s hb hs
      rw [trainEpoch_cons]
      apply ih
      · intro x hx; exact hb x (List.mem_cons_of_mem _ hx)
      · have hbb := hb b (List.mem_cons_self _ _)
        have hloss := batchLoss_isFinite cfg s.params b henc hunet hbb.1 hbb.2
        have he : (trainBatch cfg s b).trainLoss
            = Fp.add s.trainLoss (batchLoss cfg s.params b) := rfl
        rw [he]
        exact Fp.isFinite_add hs hloss

/-- C8: over a two-batch dataset with an identity DenoiseNetwork and an
identity LatentCodec (and finite gradients, well-shaped non-empty
batches), one training epoch yields a finite running loss and advances the
optimizer state exactly once per batch - twice in total. -/
theorem trainEpoch_identity_two_batches (cfg : LoopConfig) (s : TrainState)
    (b1 b2 : Batch)
    (henc : cfg.encode = fun _ img => img.map Fp.val)
    (hunet : cfg.unet = fun _ x _ => x)
    (hgrad : ∀ (ps : List Param) (b : Batch), (cfg.gradOf ps b).all Fp.isFinite = true)
    (hshape1 : b1.images.map List.length = b1.noiseRand.map List.length)
    (hshape2 : b2.images.map List.length = b2.noiseRand.map List.length)
    (hne1 : b1.images.flatten.length ≠ 0) (hne2 : b2.images.flatten.length ≠ 0)
    (hs : s.trainLoss.isFinite = true) :
    (trainEpoch cfg s [b1, b2]).optSteps = s.optSteps + 2 ∧
    (trainEpoch cfg s [b1, b2]).trainLoss.isFinite = true := by
  constructor
  · simpa using trainEpoch_optSteps cfg hgrad [b1, b2] s
  · apply trainEpoch_trainLoss_finite cfg henc hunet [b1, b2] s ?_ hs
    intro b hb
    simp only [List.mem_cons, List.not_mem_nil, or_false] at hb
    rcases hb with rfl | rfl
    · exact ⟨hshape1, hne1⟩
    · exact ⟨hshape2, hne2⟩

/-- C8 witness: the identity configuration on the two concrete batches
from a fresh state. -/
theorem trainEpoch_identity_two_batches_witness :
    (trainEpoch cfgId st0 [batch1, batch2]).optSteps = st0.optSteps + 2 ∧
    (trainEpoch cfgId st0 [batch1, batch2]).trainLoss.isFinite = true :=
  trainEpoch_identity_two_batches cfgId st0 batch1 batch2 rfl rfl (fun _ _ => rfl)
    rfl rfl (by decide) (by decide) rfl

/-- The AdamW update leaves the frozen view of the parameters untouched:
a parameter without gradients is not updated. -/
theorem updateParams_frozenPart (u : ℕ → ℚ → ℚ) :
    ∀ (i : ℕ) (ps : List Param), frozenPart (updateParams u i ps) = frozenPart ps := by
  intro i ps
  induction ps generalizing i with
  | nil => rfl
  | cons p ps ih =>
      simp only [updateParams, frozenPart, List.map_cons, List.cons.injEq]
      constructor
      · cases hpr : p.requiresGrad <;> simp [hpr]
      · exact ih (i + 1)

/-- vaeGradOn distributes over log concatenation. -/
theorem vaeGradOn_append (l1 l2 : List (Callee × Bool)) :
    vaeGradOn (l1 ++ l2) = vaeGradOn l1 ++ vaeGradOn l2 := by
  simp [vaeGradOn, List.filter_append]

/-- A training batch preserves the frozen parameters and makes no VAE call
with gradients enabled. -/
theorem trainBatch_frozen_log (cfg : LoopConfig) (s : TrainState) (b : Batch) :
    frozenPart (trainBatch cfg s b).params = frozenPart s.params ∧
    vaeGradOn (trainBatch cfg s b).log = vaeGradOn s.log := by
  constructor
  · have he : (trainBatch cfg s b).params
        = if (cfg.gradOf s.params b).all Fp.isFinite then updateParams cfg.update 0 s.params
          else s.params := rfl
    rw [he]
    split
    · exact updateParams_frozenPart cfg.update 0 s.params
    · rfl
  · have he : (trainBatch cfg s b).log = s.log ++ trainCallLog := rfl
    rw [he, vaeGradOn_append]
    have hz : vaeGradOn trainCallLog = [] := rfl
    rw [hz, List.append_nil]

/-- A validation batch preserves the frozen parameters and makes no VAE
call with gradients enabled. -/
theorem valBatch_frozen_log (cfg : LoopConfig) (s : TrainState) (b : Batch) :
    frozenPart (valBatch cfg s b).params = frozenPart s.params ∧
    vaeGradOn (valBatch cfg s b).log = vaeGradOn s.log := by
  constructor
  · rfl
  · have he : (valBatch cfg s b).log = s.log ++ valCallLog := rfl
    rw [he, vaeGradOn_append]
    have hz : vaeGradOn valCallLog = [] := rfl
    rw [hz, List.append_nil]

/-- A training epoch preserves the frozen parameters and adds no VAE call
with gradients enabled. -/
theorem trainEpoch_frozen_log (cfg : LoopConfig) :
    ∀ (bs : List Batch) (s : TrainState),
      frozenPart (trainEpoch cfg s bs).params = frozenPart s.params ∧
      vaeGradOn (trainEpoch cfg s bs).log = vaeGradOn s.log := by
  intro bs
  induction bs with
  | nil => intro s; exact ⟨rfl, rfl⟩
  | cons b bs ih =>
      intro s
      rw [trainEpoch_cons]
      have h1 := ih (trainBatch cfg s b)
      have h2 := trainBatch_frozen_log cfg s b
      exact ⟨h1.1.trans h2.1, h1.2.trans h2.2⟩

/-- A validation epoch preserves the frozen parameters and adds no VAE
call with gradients enabled. -/
theorem valEpoch_frozen_log (cfg : LoopConfig) :
    ∀ (bs : List Batch) (s : TrainState),
      frozenPart (valEpoch cfg s bs).params = frozenPart s.params ∧
      vaeGradOn (valEpoch cfg s bs).log = vaeGradOn s.log := by
  intro bs
  induction bs with
  | nil => intro s; exact ⟨rfl, rfl⟩
  | cons b bs ih =>
      intro s
      rw [valEpoch_cons]
      have h1 := ih (valBatch cfg s b)
      have h2 := valBatch_frozen_log cfg s b
      exact ⟨h1.1.trans h2.1, h1.2.trans h2.2⟩

/-- The whole epoch loop preserves the frozen parameters and adds no VAE
call with gradients enabled. -/
theorem runEpochs_frozen_log (cfg : LoopConfig) (tb vb : List Batch) :
    ∀ (n e : ℕ) (s : TrainState),
      frozenPart ((runEpochs cfg tb vb n e s).1.params) = frozenPart s.params ∧
      vaeGradOn ((runEpochs cfg tb vb n e s).1.log) = vaeGradOn s.log := by
  intro n
  induction n with
  | zero => intro e s; exact ⟨rfl, rfl⟩
  | succ n ih =>
      intro e s
      have h1 := trainEpoch_frozen_log cfg tb { s with trainLoss := Fp.val 0 }
      have h2 := valEpoch_frozen_log cfg vb
        { trainEpoch cfg { s with trainLoss := Fp.val 0 } tb with valLoss := Fp.val 0 }
      have h3 := ih (e + 1)
        { valEpoch cfg
            { trainEpoch cfg { s with trainLoss := Fp.val 0 } tb with valLoss := Fp.val 0 } vb
          with lrSchedSteps :=
            (valEpoch cfg
              { trainEpoch cfg { s with trainLoss := Fp.val 0 } tb with
                valLoss := Fp.val 0 } vb).lrSchedSteps + 1 }
      exact ⟨(h3.1.trans h2.1).trans h1.1, (h3.2.trans h2.2).trans h1.2⟩

/-- C9: for the entire duration of a run whose initial parameters are a
VAE block frozen at load time (requires_grad cleared, train.py lines
45-46) followed by the trainable U-Net block, the final parameters still
carry exactly the original VAE values in the frozen positions, and the run
makes no VAE forward call with gradient tracking enabled beyond whatever
the initial log held. -/
theorem run_keeps_vae_frozen (cfg : LoopConfig) (tb vb : List Batch) (epochs : ℕ)
    (vaeP unetP : List Param) (s : TrainState)
    (hp : s.params = freezeParams vaeP ++ unetP) :
    frozenPart ((run cfg tb vb epochs s).1.params)
      = vaeP.map (fun p => some p.value) ++ frozenPart unetP ∧
    vaeGradOn ((run cfg tb vb epochs s).1.log) = vaeGradOn s.log := by
  have hr : (run cfg tb vb epochs s).1 = (runEpochs cfg tb vb epochs 0 s).1 := rfl
  rw [hr]
  have h := runEpochs_frozen_log cfg tb vb epochs 0 s
  refine ⟨h.1.trans ?_, h.2⟩
  rw [hp]
  simp [frozenPart, freezeParams, List.map_map, Function.comp]

/-- C9 witness: a three-epoch run from a state whose parameters are one
frozen VAE entry of value 5 and one trainable entry of value 7. -/
theorem run_keeps_vae_frozen_witness :
    stFrozen.params = freezeParams [⟨5, true⟩] ++ [⟨7, true⟩] ∧
    (frozenPart ((run cfgId [batch1] [batch2] 3 stFrozen).1.params)
        = ([⟨5, true⟩] : List Param).map (fun p => some p.value) ++ frozenPart [⟨7, true⟩] ∧
      vaeGradOn ((run cfgId [batch1] [batch2] 3 stFrozen).1.log) = vaeGradOn stFrozen.log) :=
  ⟨rfl, run_keeps_vae_frozen cfgId [batch1] [batch2] 3 [⟨5, true⟩] [⟨7, true⟩] stFrozen rfl⟩

/-- C10: importing pre_train (which train.py line 12 does to obtain
train_vae) executes its module-level statements, and under the committed
selector value those immediately launch a complete 80-epoch VAE
pretraining run on the Local data path - a side effect of the import, not
of any call by the importer. -/
theorem pre_train_import_side_effect :
    trainPyImportSideEffects
      = [PreTrainAction.trainVaeCall 128 80 16
          "recognition/S4696417-Stable-Diffusion-ADNI/data/train/AD"
          "recognition/S4696417-Stable-Diffusion-ADNI/checkpoints/VAE"] ∧
    trainPyImportSideEffects ≠ [] := by
  constructor
  · decide
  · decide

end SDModel
